import Mathlib

/-!
A verification development for the `csvimport` program (`src/main.go`).

The program reads CSV tables and emits SQL schema plus load scripts.  Its
core is a per-column type-inference engine: the structure `fieldType` holds
a narrowing hypothesis over the candidate tags Date / Int / Float / Percent,
`fieldType.Check` observes one raw value (pass 1), `fieldType.SqlType`
resolves the SQL type with a fixed precedence, and `fieldType.Parse`
re-renders a value under the resolved tag (pass 2).  Column identifiers are
derived from the header row by `slug` plus a collision-resolving suffix
search (the loop inside `handle`).

The Go standard-library routines the program calls (`strconv.Atoi`,
`strconv.ParseFloat`, `time.Parse` with layout `2006-01-02`, and the
`fmt.Sprintf` verbs `%d` / `%f`) are embedded as executable Lean functions
below (`goAtoi`, `goFloatAccepts` / `formatF`, the body of `parseDate`,
`decRepr`).  Fidelity notes:

* `goAtoi` models `strconv.Atoi` exactly: optional sign, one or more
  decimal digits, 64-bit signed range check (base fixed at 10, so no
  underscores and no base prefixes are accepted).
* `goFloatAccepts` models the acceptance domain of
  `strconv.ParseFloat(s, 64)` for decimal mantissas with optional decimal
  exponent and the special values `inf` / `infinity` / `nan`
  (case-insensitively, with the sign rules of the Go implementation), and
  rejects values at or beyond the float64 overflow threshold
  `2^1024 - 2^970` as `ParseFloat` does.  The hexadecimal-float and
  digit-underscore forms that Go also accepts are not modelled; no theorem
  below depends on them (they contain no `%` and none appears in any
  concrete input used here).
* `formatF` renders `%f` (six fractional digits) by exact rational
  arithmetic with round-half-to-even; the composed binary float64 rounding
  of Go can differ on adversarial ties, and no theorem below inspects a
  float-rendered digit string.
* `Char.toLower` (ASCII-only) stands in for Go's Unicode `strings.ToLower`
  inside `slug`; the two agree on every character class the slug alphabet
  `[a-z0-9]` distinguishes after lowering, except for exotic code points
  (such as U+212A) whose lowercase form is ASCII, which no statement here
  touches.
-/

set_option maxRecDepth 8000

deriving instance DecidableEq for Except

/-- ASCII decimal digit test, as Go's `'0' <= c && c <= '9'`. -/
def isDigitChar (c : Char) : Bool := 48 ≤ c.toNat && c.toNat ≤ 57

/-- Value of a string of decimal digit characters, most significant first. -/
def digitsVal (ds : List Char) : Nat := ds.foldl (fun a c => a * 10 + (c.toNat - 48)) 0

/-- Decimal digit characters of `n` (second argument), most significant first;
fuel-driven so that it is structurally recursive.  Empty on `n = 0`. -/
def decRepAux : Nat → Nat → List Char
  | 0, _ => []
  | _ + 1, 0 => []
  | fuel + 1, n + 1 => decRepAux fuel ((n + 1) / 10) ++ [Char.ofNat (48 + (n + 1) % 10)]

/-- Decimal rendering of a natural number, as `fmt.Sprintf("%d", n)` for `n ≥ 0`. -/
def decRepr (n : Nat) : String := if n = 0 then "0" else String.mk (decRepAux (n + 1) n)

/-- Decimal rendering of an integer, as `strconv.Itoa`. -/
def intRepr (n : Int) : String := if n < 0 then "-" ++ decRepr n.natAbs else decRepr n.toNat

/-- `n` rendered in decimal and left-padded with zeros to `k` characters. -/
def padZeros (k : Nat) (n : Nat) : String :=
  String.mk (List.replicate (k - (decRepr n).data.length) '0' ++ (decRepr n).data)

/-- `strconv.Atoi`: optional sign, then one or more decimal digits, with a
64-bit signed overflow check (out-of-range input is an error). -/
def goAtoi (cs : List Char) : Except String Int :=
  let ds := if cs.head? = some '-' ∨ cs.head? = some '+' then cs.tail else cs
  if ds.isEmpty then .error "invalid syntax"
  else if ds.all isDigitChar then
    let v : Int := if cs.head? = some '-' then -(digitsVal ds : Int) else (digitsVal ds : Int)
    if v < -(2 ^ 63) ∨ (2 ^ 63 - 1 : Int) < v then .error "value out of range"
    else .ok v
  else .error "invalid syntax"

/-- `strings.ReplaceAll s "," ""`: remove every comma. -/
def stripCommas (s : String) : String := String.mk (s.data.filter (fun c => c ≠ ','))

/-- Drop one leading `+` or `-`. -/
def stripSign : List Char → List Char
  | [] => []
  | c :: rest => if c = '+' ∨ c = '-' then rest else c :: rest

/-- Exponent digits after the `e`/`E`: optional sign then one or more digits. -/
def expTail (cs : List Char) : Bool :=
  let ds := stripSign cs
  !ds.isEmpty && ds.all isDigitChar

/-- Optional exponent part of a decimal float literal. -/
def expPart : List Char → Bool
  | [] => true
  | c :: rest => if c = 'e' ∨ c = 'E' then expTail rest else false

/-- Rest of a decimal mantissa after the leading digit run `d1`:
an optional `.` with a further digit run (at least one digit in total),
then an optional exponent. -/
def mantissaRest (d1 : List Char) (r : List Char) : Bool :=
  if r.head? = some '.' then
    (!(d1.isEmpty && (r.tail.takeWhile isDigitChar).isEmpty)) &&
      expPart (r.tail.dropWhile isDigitChar)
  else !d1.isEmpty && expPart r

/-- Syntax of a (signed) decimal float literal, as read by `strconv.ParseFloat`. -/
def decSyntax (cs : List Char) : Bool :=
  mantissaRest ((stripSign cs).takeWhile isDigitChar) ((stripSign cs).dropWhile isDigitChar)

/-- Case-insensitive (ASCII) comparison of `cs` with the word `w`. -/
def lowerEq (cs : List Char) (w : String) : Bool := cs.map Char.toLower == w.data

/-- The special float values `strconv.ParseFloat` accepts: `inf`/`infinity`
with optional sign, `nan` without one, case-insensitively. -/
def specialFloat (cs : List Char) : Bool :=
  lowerEq cs "inf" || lowerEq cs "infinity" || lowerEq cs "nan" ||
  ((cs.head? == some '+' || cs.head? == some '-') &&
    (lowerEq cs.tail "inf" || lowerEq cs.tail "infinity"))

/-- Fractional digit run after an optional `.`, and the remainder. -/
def splitFrac (r : List Char) : List Char × List Char :=
  if r.head? = some '.' then (r.tail.takeWhile isDigitChar, r.tail.dropWhile isDigitChar)
  else ([], r)

/-- Sign and value of the exponent part (defaults to `+0` when absent). -/
def expVal (r : List Char) : Bool × Nat :=
  if r.head? = some 'e' ∨ r.head? = some 'E' then
    if r.tail.head? = some '-' then (true, digitsVal r.tail.tail)
    else if r.tail.head? = some '+' then (false, digitsVal r.tail.tail)
    else (false, digitsVal r.tail)
  else (false, 0)

/-- Magnitude of a decimal float literal as an exact fraction `num / den`. -/
def floatMag (cs : List Char) : Nat × Nat :=
  let cs1 := stripSign cs
  let d1 := cs1.takeWhile isDigitChar
  let fr := splitFrac (cs1.dropWhile isDigitChar)
  let ev := expVal fr.2
  let m := digitsVal (d1 ++ fr.1)
  if ev.1 then (m, 10 ^ (fr.1.length + ev.2)) else (m * 10 ^ ev.2, 10 ^ fr.1.length)

/-- `strconv.ParseFloat(_, 64)` reports an overflow error exactly when the
decimal magnitude reaches `2^1024 - 2^970` (half an ulp above the largest
finite float64).  Written as a literal so that kernel evaluation does not
unfold a 1024-step power; `maxFloatThreshold_eq` below checks the value. -/
def maxFloatThreshold : Nat := 179769313486231580793728971405303415079934132710037826936173778980444968292764750946649017977587207096330286416692887910946555547851940402630657488671505820681908902000708383676273854845817711531764475730270069855571366959622842914819860834936475292719074168444365510704342711559699508093042880177904174497792

/-- Acceptance domain of `strconv.ParseFloat(s, 64)` (see the fidelity notes
in the file header): special values, or a decimal literal below the
overflow threshold. -/
def goFloatAccepts (cs : List Char) : Bool :=
  specialFloat cs ||
  (decSyntax cs && decide ((floatMag cs).1 < maxFloatThreshold * (floatMag cs).2))

/-- Round `num / den` to the nearest integer, ties to even. -/
def roundHalfEven (num den : Nat) : Nat :=
  let q := num / den
  let r := num % den
  if 2 * r < den then q
  else if den < 2 * r then q + 1
  else if q % 2 = 0 then q else q + 1

/-- `fmt.Sprintf("%f", v)` for the value of an accepted float literal:
six fractional digits; `+Inf` / `-Inf` / `NaN` for the special values. -/
def formatF (cs : List Char) : String :=
  let neg := match cs with | c :: _ => c == '-' | [] => false
  let low := cs.map Char.toLower
  if low = "nan".data then "NaN"
  else if stripSign low = "inf".data ∨ stripSign low = "infinity".data then
    (if neg then "-Inf" else "+Inf")
  else
    let nd := floatMag cs
    let m := roundHalfEven (nd.1 * 1000000) nd.2
    (if neg then "-" else "") ++ decRepr (m / 1000000) ++ "." ++ padZeros 6 (m % 1000000)

/-- Gregorian leap year, as `time.isLeap`. -/
def isLeap (y : Nat) : Bool := y % 4 = 0 && (y % 100 ≠ 0 || y % 400 = 0)

/-- Days in a month, as `time.daysIn`. -/
def daysIn (y m : Nat) : Nat :=
  if m = 2 then (if isLeap y then 29 else 28)
  else if m = 4 ∨ m = 6 ∨ m = 9 ∨ m = 11 then 30
  else 31

/-- `parseDate` from `src/main.go`: `time.Parse("2006-01-02", s)` demands the
exact shape `YYYY-MM-DD` (fixed-width, digits only) with a valid calendar
month and day, and on success renders midnight UTC in RFC 3339 form; any
failure becomes the error `not a timestamp`. -/
def parseDate (s : String) : Except String String :=
  match s.data with
  | [y1, y2, y3, y4, h1, m1, m2, h2, d1, d2] =>
    if h1 = '-' ∧ h2 = '-' ∧ [y1, y2, y3, y4, m1, m2, d1, d2].all isDigitChar then
      let y := digitsVal [y1, y2, y3, y4]
      let mo := digitsVal [m1, m2]
      let d := digitsVal [d1, d2]
      if 1 ≤ mo ∧ mo ≤ 12 ∧ 1 ≤ d ∧ d ≤ daysIn y mo then
        .ok (padZeros 4 y ++ "-" ++ padZeros 2 mo ++ "-" ++ padZeros 2 d ++ "T00:00:00Z")
      else .error "not a timestamp"
    else .error "not a timestamp"
  | _ => .error "not a timestamp"

/-- `parseInt` from `src/main.go`: strip all commas, parse with
`strconv.Atoi`, and on success return `strconv.Itoa` of the value. -/
def parseInt (s : String) : Except String String :=
  match goAtoi (stripCommas s).data with
  | .ok n => .ok (intRepr n)
  | .error e => .error e

/-- `parseFloat` from `src/main.go`: strip all commas, parse with
`strconv.ParseFloat(_, 64)`, and on success return `fmt.Sprintf("%f", f)`. -/
def parseFloat (s : String) : Except String String :=
  let t := stripCommas s
  if goFloatAccepts t.data then .ok (formatF t.data) else .error "invalid syntax"

/-- `parsePercent` from `src/main.go`: demand one trailing `%`, strip it
(no comma stripping here), then parse the remainder as a float. -/
def parsePercent (s : String) : Except String String :=
  if s.data.getLast? = some '%' then
    if goFloatAccepts s.data.dropLast then .ok (formatF s.data.dropLast)
    else .error "invalid syntax"
  else .error "no trailing percent"

/-- The column type hypothesis of `src/main.go` (`type fieldType struct`):
one flag per still-possible tag, plus the two nullability witnesses. -/
structure fieldType where
  Date : Bool
  Int : Bool
  Float : Bool
  Percent : Bool
  Empty : Bool
  NonEmpty : Bool
deriving DecidableEq

/-- `newFieldType`: all four tags possible, nothing observed yet. -/
def newFieldType : fieldType :=
  { Date := true, Int := true, Float := true, Percent := true, Empty := false, NonEmpty := false }

/-- Sentinel normalization shared by both passes: `#DIV/0!` counts as empty. -/
def normSent (s : String) : String := if s = "#DIV/0!" then "" else s

/-- `fieldType.Check` (pass 1): normalize the sentinel; an empty value only
sets `Empty`; a non-empty value sets `NonEmpty` and disqualifies every
still-possible tag whose parse rule rejects it. -/
def fieldType.Check (f : fieldType) (s : String) : fieldType :=
  let s := if s = "#DIV/0!" then "" else s
  if s = "" then { f with Empty := true }
  else
    let f1 := { f with NonEmpty := true }
    let f2 := if f1.Date then (match parseDate s with | .ok _ => f1 | .error _ => { f1 with Date := false }) else f1
    let f3 := if f2.Int then (match parseInt s with | .ok _ => f2 | .error _ => { f2 with Int := false }) else f2
    let f4 := if f3.Float then (match parseFloat s with | .ok _ => f3 | .error _ => { f3 with Float := false }) else f3
    if f4.Percent then (match parsePercent s with | .ok _ => f4 | .error _ => { f4 with Percent := false }) else f4

/-- `fieldType.Parse` (pass 2): normalize the sentinel; empty stays empty;
otherwise apply the parse rule of the highest-precedence possible tag, or
return the value unchanged when no tag survived. -/
def fieldType.Parse (f : fieldType) (s : String) : Except String String :=
  let s := if s = "#DIV/0!" then "" else s
  if s = "" then .ok s
  else if f.Date then parseDate s
  else if f.Int then parseInt s
  else if f.Float then parseFloat s
  else if f.Percent then parsePercent s
  else .ok s

/-- `fieldType.SqlType`: fixed precedence Date, Int, Float-or-Percent, then
the `text` fallback; ` not null` is appended when no empty value was seen —
note the source appends it to the three typed cases only, not to `text`. -/
def fieldType.SqlType (f : fieldType) : String :=
  let mod := if !f.Empty then " not null" else ""
  if f.Date then "timestamptz" ++ mod
  else if f.Int then "integer" ++ mod
  else if f.Float || f.Percent then "float" ++ mod
  else "text"

/-- Pass 1 over a whole column: the per-row `Check` loop of `handle`. -/
def checkAll (f : fieldType) (vs : List String) : fieldType := vs.foldl fieldType.Check f

/-- The four narrowing tags, for stating hypothesis-set facts. -/
inductive typeTag where
  | date
  | int
  | float
  | percent
deriving DecidableEq

/-- Whether tag `t` is still possible in state `f`. -/
def tagPossible (f : fieldType) : typeTag → Bool
  | .date => f.Date
  | .int => f.Int
  | .float => f.Float
  | .percent => f.Percent

/-- The parse rule owned by tag `t`. -/
def tagRule : typeTag → String → Except String String
  | .date => parseDate
  | .int => parseInt
  | .float => parseFloat
  | .percent => parsePercent

/-- Success test for the `(string, error)` results. -/
def isOkE {α β : Type} : Except α β → Bool
  | .ok _ => true
  | .error _ => false

/-- Whether an emitted SQL type string carries the ` not null` modifier. -/
def hasNotNull (s : String) : Bool := (" not null").data.isSuffixOf s.data

/-- A character admissible in a derived identifier: `[a-z0-9_]`. -/
def isIdentChar (c : Char) : Bool :=
  (97 ≤ c.toNat && c.toNat ≤ 122) || (48 ≤ c.toNat && c.toNat ≤ 57) || c = '_'

/-- A character the slug keeps as-is: `[a-z0-9]`. -/
def isSlugChar (c : Char) : Bool :=
  (97 ≤ c.toNat && c.toNat ≤ 122) || (48 ≤ c.toNat && c.toNat ≤ 57)

/-- Replace every maximal run of non-`[a-z0-9]` characters by one `_`
(the regex `[^a-z0-9]+` → `_`); the flag records being inside such a run. -/
def collapseNonSlug : Bool → List Char → List Char
  | _, [] => []
  | inRun, c :: rest =>
    if isSlugChar c then c :: collapseNonSlug false rest
    else if inRun then collapseNonSlug true rest
    else '_' :: collapseNonSlug true rest

/-- `strings.Trim _ "_"`: drop leading and trailing underscores. -/
def trimUnderscores (cs : List Char) : List Char :=
  ((cs.dropWhile (fun c => c = '_')).reverse.dropWhile (fun c => c = '_')).reverse

/-- `slug` from `src/main.go`: lowercase, collapse non-alphanumeric runs to
`_`, trim underscores at both ends. -/
def slug (s : String) : String :=
  String.mk (trimUnderscores (collapseNonSlug false (s.data.map Char.toLower)))

/-- The suffix-search loop of `handle`: try `sl_k`, `sl_(k+1)`, … until a
name unused in `seen` appears.  Go's loop is unbounded; here it carries
fuel, and the pigeonhole argument below shows `seen.length` tries always
suffice, so the fallback arm is never the result. -/
def suffixSearch (seen : List String) (sl : String) : Nat → Nat → String
  | 0, k => sl ++ "_" ++ decRepr k
  | fuel + 1, k =>
    if (sl ++ "_" ++ decRepr k) ∈ seen then suffixSearch seen sl fuel (k + 1)
    else sl ++ "_" ++ decRepr k

/-- First collision-free suffixed name, starting from `_2`. -/
def nextFree (seen : List String) (sl : String) : String :=
  suffixSearch seen sl seen.length 2

/-- The identifier-derivation loop of `handle`: slug each header, fall back
to `x` on an empty slug, resolve collisions with the suffix search, and
record the assigned name. -/
def columnNamesFrom (seen : List String) : List String → List String
  | [] => []
  | col :: rest =>
    let sl0 := slug col
    let sl1 := if sl0 = "" then "x" else sl0
    let sl2 := if sl1 ∈ seen then nextFree seen sl1 else sl1
    sl2 :: columnNamesFrom (sl2 :: seen) rest

/-- Shape of a well-formed derived identifier: non-empty, alphabet
`[a-z0-9_]`, and no underscore at either end. -/
def goodIdent (x : String) : Prop :=
  x.data ≠ [] ∧ (∀ c ∈ x.data, isIdentChar c = true) ∧
    x.data.head? ≠ some '_' ∧ x.data.getLast? ≠ some '_'

instance (x : String) : Decidable (goodIdent x) := by
  unfold goodIdent
  infer_instance

/-! ### Decimal rendering: correctness, injectivity, character shape -/

theorem maxFloatThreshold_eq : maxFloatThreshold = 2 ^ 1024 - 2 ^ 970 := by
  norm_num [maxFloatThreshold]

theorem digitsVal_append_digit (xs : List Char) (c : Char) :
    digitsVal (xs ++ [c]) = digitsVal xs * 10 + (c.toNat - 48) := by
  simp [digitsVal, List.foldl_append]

theorem decRepAux_val : ∀ (fuel n : Nat), n ≤ fuel → digitsVal (decRepAux fuel n) = n := by
  intro fuel
  induction fuel with
  | zero =>
    intro n h
    interval_cases n
    simp [decRepAux, digitsVal]
  | succ fuel ih =>
    intro n h
    match n with
    | 0 => simp [decRepAux, digitsVal]
    | m + 1 =>
      rw [decRepAux, digitsVal_append_digit]
      have hdiv : (m + 1) / 10 ≤ fuel := by
        have : (m + 1) / 10 < m + 1 := Nat.div_lt_self (Nat.succ_pos m) (by norm_num)
        omega
      rw [ih _ hdiv]
      have hc : (Char.ofNat (48 + (m + 1) % 10)).toNat = 48 + (m + 1) % 10 := by
        have hlt : (m + 1) % 10 < 10 := Nat.mod_lt _ (by norm_num)
        have hall : ∀ r < 10, (Char.ofNat (48 + r)).toNat = 48 + r := by decide
        exact hall _ hlt
      rw [hc]
      omega

theorem decRepAux_digits : ∀ (fuel n : Nat), ∀ c ∈ decRepAux fuel n, isDigitChar c = true := by
  intro fuel
  induction fuel with
  | zero => intro n c h; simp [decRepAux] at h
  | succ fuel ih =>
    intro n c h
    match n with
    | 0 => simp [decRepAux] at h
    | m + 1 =>
      rw [decRepAux] at h
      rcases List.mem_append.1 h with h1 | h2
      · exact ih _ _ h1
      · have h2' : c = Char.ofNat (48 + (m + 1) % 10) := by simpa using h2
        subst h2'
        have hlt : (m + 1) % 10 < 10 := Nat.mod_lt _ (by norm_num)
        have hall : ∀ r < 10, isDigitChar (Char.ofNat (48 + r)) = true := by decide
        exact hall _ hlt

theorem decRepr_data_val (n : Nat) : digitsVal (decRepr n).data = n := by
  unfold decRepr
  split
  · simp_all [digitsVal]
  · exact decRepAux_val _ _ (Nat.le_succ n)

theorem decRepr_data_digits (n : Nat) : ∀ c ∈ (decRepr n).data, isDigitChar c = true := by
  unfold decRepr
  split
  · intro c h; simp at h; subst h; decide
  · exact decRepAux_digits _ _

theorem decRepr_data_ne_nil (n : Nat) : (decRepr n).data ≠ [] := by
  intro h
  have hv := decRepr_data_val n
  rw [h] at hv
  simp [digitsVal] at hv
  rw [← hv] at h
  simp [decRepr] at h

theorem decRepr_inj : Function.Injective decRepr := by
  intro a b h
  have ha := decRepr_data_val a
  rw [h, decRepr_data_val] at ha
  exact ha.symm

/-! ### `strconv.Atoi` / `strconv.Itoa` round trip -/

theorem goAtoi_ok_range {cs : List Char} {n : Int} (h : goAtoi cs = .ok n) :
    -(2 ^ 63) ≤ n ∧ n ≤ 2 ^ 63 - 1 := by
  simp only [goAtoi] at h
  repeat' split at h
  any_goals exact Except.noConfusion h
  all_goals
    injection h with h2
    subst h2
    rename_i hr
    push_neg at hr
    exact hr

theorem goAtoi_intRepr {n : Int} (h1 : -(2 ^ 63) ≤ n) (h2 : n ≤ 2 ^ 63 - 1) :
    goAtoi (intRepr n).data = .ok n := by
  rcases lt_or_le n 0 with hn | hn
  · have hdata : (intRepr n).data = '-' :: (decRepr n.natAbs).data := by
      simp [intRepr, hn]
    have hne : ¬ (decRepr n.natAbs).data = [] := decRepr_data_ne_nil _
    have hall : (decRepr n.natAbs).data.all isDigitChar = true :=
      List.all_eq_true.mpr (decRepr_data_digits _)
    have hval := decRepr_data_val n.natAbs
    have habs : |n| = -n := abs_of_neg hn
    simp [goAtoi, hdata, hne, hall, hval, habs]
    omega
  · have hrep : intRepr n = decRepr n.toNat := by simp [intRepr, not_lt.2 hn]
    obtain ⟨c, cs', hd⟩ : ∃ c cs', (decRepr n.toNat).data = c :: cs' := by
      cases hx : (decRepr n.toNat).data with
      | nil => exact absurd hx (decRepr_data_ne_nil _)
      | cons a l => exact ⟨a, l, rfl⟩
    have hcd : isDigitChar c = true :=
      decRepr_data_digits _ c (by rw [hd]; exact List.mem_cons_self _ _)
    have hcm : ¬ c = '-' := by intro e; subst e; simp [isDigitChar] at hcd
    have hcp : ¬ c = '+' := by intro e; subst e; simp [isDigitChar] at hcd
    have hall : (c :: cs').all isDigitChar = true := by
      rw [← hd]
      exact List.all_eq_true.mpr (decRepr_data_digits _)
    have hv : digitsVal (c :: cs') = n.toNat := by rw [← hd]; exact decRepr_data_val _
    have htn : (n.toNat : Int) = n := Int.toNat_of_nonneg hn
    simp [goAtoi, hrep, hd, hcm, hcp, hall, hv, htn]
    omega

theorem parseInt_ok_elim {s v : String} (h : parseInt s = .ok v) :
    ∃ n : Int, goAtoi (stripCommas s).data = .ok n ∧ v = intRepr n := by
  unfold parseInt at h
  split at h
  · rename_i n hn
    injection h with h2
    exact ⟨n, hn, h2.symm⟩
  · exact Except.noConfusion h

theorem intRepr_chars (n : Int) : ∀ c ∈ (intRepr n).data, c = '-' ∨ isDigitChar c = true := by
  unfold intRepr
  split
  · intro c hc
    rw [show (("-" ++ decRepr n.natAbs).data) = '-' :: (decRepr n.natAbs).data from rfl] at hc
    rcases List.mem_cons.1 hc with h | h
    · exact Or.inl h
    · exact Or.inr (decRepr_data_digits _ _ h)
  · intro c hc
    exact Or.inr (decRepr_data_digits _ _ hc)

theorem stripCommas_eq_self {s : String} (h : ∀ c ∈ s.data, ¬ c = ',') : stripCommas s = s := by
  cases s with
  | mk data =>
    simp only [stripCommas]
    congr 1
    rw [List.filter_eq_self]
    intro a ha
    simpa using h a ha

theorem parseInt_canonical {s v : String} (h : parseInt s = .ok v) : parseInt v = .ok v := by
  obtain ⟨n, hA, rfl⟩ := parseInt_ok_elim h
  obtain ⟨h1, h2⟩ := goAtoi_ok_range hA
  have hs : stripCommas (intRepr n) = intRepr n := by
    apply stripCommas_eq_self
    intro c hc
    rcases intRepr_chars n c hc with h | h
    · subst h; decide
    · intro e; subst e; simp [isDigitChar] at h
  unfold parseInt
  rw [hs, goAtoi_intRepr h1 h2]

/-! ### Closed forms for `Check` and `Parse`, narrowing lemmas -/

theorem normSent_ne_cases {s : String} (h : ¬ normSent s = "") : ¬ s = "#DIV/0!" ∧ ¬ s = "" := by
  unfold normSent at h
  split at h
  · exact absurd rfl h
  · rename_i h1
    exact ⟨h1, h⟩

theorem Check_empty {f : fieldType} {s : String} (h : normSent s = "") :
    f.Check s = { f with Empty := true } := by
  simp only [normSent] at h
  simp [fieldType.Check, h]

theorem Check_nonempty {f : fieldType} {s : String} (h : ¬ normSent s = "") :
    f.Check s = { Date := f.Date && isOkE (parseDate s), Int := f.Int && isOkE (parseInt s),
                  Float := f.Float && isOkE (parseFloat s),
                  Percent := f.Percent && isOkE (parsePercent s),
                  Empty := f.Empty, NonEmpty := true } := by
  obtain ⟨h1, h2⟩ := normSent_ne_cases h
  rcases f with ⟨d, i, fl, p, e, ne⟩
  cases hD : parseDate s <;> cases hI : parseInt s <;> cases hF : parseFloat s <;>
    cases hP : parsePercent s <;> cases d <;> cases i <;> cases fl <;> cases p <;>
      simp [fieldType.Check, h1, h2, hD, hI, hF, hP, isOkE]

theorem tagPossible_Check_nonempty {f : fieldType} {s : String} (h : ¬ normSent s = "")
    (t : typeTag) :
    tagPossible (f.Check s) t = (tagPossible f t && isOkE (tagRule t s)) := by
  rw [Check_nonempty h]
  cases t <;> rfl

theorem tagPossible_Check_mono {f : fieldType} {s : String} {t : typeTag}
    (h : tagPossible (f.Check s) t = true) : tagPossible f t = true := by
  by_cases he : normSent s = ""
  · rw [Check_empty he] at h
    cases t <;> exact h
  · rw [tagPossible_Check_nonempty he] at h
    exact (Bool.and_eq_true_iff.mp h).1

theorem tagPossible_checkAll_mono {vs : List String} {f : fieldType} {t : typeTag}
    (h : tagPossible (checkAll f vs) t = true) : tagPossible f t = true := by
  induction vs generalizing f with
  | nil => exact h
  | cons v vs ih => exact tagPossible_Check_mono (ih h)

theorem accepted_of_possible {vs : List String} {f : fieldType} {t : typeTag}
    (h : tagPossible (checkAll f vs) t = true) :
    ∀ v ∈ vs, ¬ normSent v = "" → isOkE (tagRule t v) = true := by
  induction vs generalizing f with
  | nil => intro v hv; exact absurd hv (List.not_mem_nil v)
  | cons u vs ih =>
    intro v hv hne
    rcases List.mem_cons.1 hv with rfl | hv'
    · have hstep : tagPossible (f.Check v) t = true :=
        @tagPossible_checkAll_mono vs (f.Check v) t h
      rw [tagPossible_Check_nonempty hne] at hstep
      exact (Bool.and_eq_true_iff.mp hstep).2
    · exact ih h v hv' hne

theorem Empty_Check (f : fieldType) (s : String) :
    (f.Check s).Empty = (f.Empty || normSent s == "") := by
  by_cases he : normSent s = ""
  · rw [Check_empty he]
    simp [he]
  · rw [Check_nonempty he]
    simp [he]

theorem Empty_checkAll (f : fieldType) (vs : List String) :
    (checkAll f vs).Empty = (f.Empty || vs.any (fun v => normSent v == "")) := by
  induction vs generalizing f with
  | nil => simp [checkAll]
  | cons v vs ih =>
    show (checkAll (f.Check v) vs).Empty = _
    rw [ih, Empty_Check]
    simp [Bool.or_assoc]

theorem Parse_empty {f : fieldType} {s : String} (h : normSent s = "") :
    f.Parse s = .ok "" := by
  simp only [normSent] at h
  simp [fieldType.Parse, h]

theorem Parse_nonempty {f : fieldType} {s : String} (h : ¬ normSent s = "") :
    f.Parse s = (if f.Date then parseDate s else if f.Int then parseInt s
      else if f.Float then parseFloat s else if f.Percent then parsePercent s
      else .ok s) := by
  obtain ⟨h1, h2⟩ := normSent_ne_cases h
  simp [fieldType.Parse, h1, h2]

/-! ### Order independence of pass 1 -/

theorem Check_comm (f : fieldType) (a b : String) :
    (f.Check a).Check b = (f.Check b).Check a := by
  by_cases ha : normSent a = "" <;> by_cases hb : normSent b = ""
  · simp only [Check_empty ha, Check_empty hb]
  · simp only [Check_empty ha, Check_nonempty hb]
  · simp only [Check_empty hb, Check_nonempty ha]
  · simp only [Check_nonempty ha, Check_nonempty hb]
    simp [fieldType.mk.injEq, Bool.and_right_comm]

theorem checkAll_perm {l₁ l₂ : List String} (h : l₁.Perm l₂) :
    ∀ f, checkAll f l₁ = checkAll f l₂ := by
  induction h with
  | nil => intro f; rfl
  | cons x h ih =>
    intro f
    show checkAll (f.Check x) _ = checkAll (f.Check x) _
    exact ih _
  | swap x y l =>
    intro f
    show checkAll ((f.Check y).Check x) l = checkAll ((f.Check x).Check y) l
    rw [Check_comm]
  | trans h1 h2 ih1 ih2 =>
    intro f
    rw [ih1, ih2]

/-! ### The claims -/

/-- C1: after pass 1 has observed a whole column from the fresh hypothesis,
pass-2 normalization (`Parse`) succeeds on every value of that column — in
particular on every non-empty value the resolved tag's rule accepted during
pass 1 — so the fatal error branch of `handle` is unreachable. -/
theorem claim_c1 (vs : List String) (v : String) (hv : v ∈ vs) :
    isOkE ((checkAll newFieldType vs).Parse v) = true := by
  by_cases hne : normSent v = ""
  · rw [Parse_empty hne]
    rfl
  · rw [Parse_nonempty hne]
    by_cases hD : (checkAll newFieldType vs).Date
    · rw [if_pos hD]
      exact accepted_of_possible (t := .date) hD v hv hne
    · rw [if_neg hD]
      by_cases hI : (checkAll newFieldType vs).Int
      · rw [if_pos hI]
        exact accepted_of_possible (t := .int) hI v hv hne
      · rw [if_neg hI]
        by_cases hF : (checkAll newFieldType vs).Float
        · rw [if_pos hF]
          exact accepted_of_possible (t := .float) hF v hv hne
        · rw [if_neg hF]
          by_cases hP : (checkAll newFieldType vs).Percent
          · rw [if_pos hP]
            exact accepted_of_possible (t := .percent) hP v hv hne
          · rw [if_neg hP]
            rfl

/-- Witness for C1 at a concrete column. -/
theorem claim_c1_witness :
    "2,000" ∈ ["2,000"] ∧ isOkE ((checkAll newFieldType ["2,000"]).Parse "2,000") = true :=
  ⟨by decide, claim_c1 ["2,000"] "2,000" (by decide)⟩

/-- C3: hypothesis narrowing is monotone — for every state and observation
sequence, a tag still possible after `n + 1` observations was possible after
`n`; equivalently, a removed tag never returns. -/
theorem claim_c3 (f : fieldType) (os : List String) (n : Nat) (t : typeTag)
    (h : tagPossible (checkAll f (os.take (n + 1))) t = true) :
    tagPossible (checkAll f (os.take n)) t = true := by
  rw [List.take_succ] at h
  have hsplit : checkAll f (os.take n ++ os[n]?.toList) =
      checkAll (checkAll f (os.take n)) os[n]?.toList := by
    simp [checkAll, List.foldl_append]
  rw [hsplit] at h
  exact tagPossible_checkAll_mono h

/-- Witness for C3 at a concrete observation sequence. -/
theorem claim_c3_witness :
    tagPossible (checkAll newFieldType (["1"].take 1)) .int = true ∧
      tagPossible (checkAll newFieldType (["1"].take 0)) .int = true :=
  ⟨by decide, claim_c3 newFieldType ["1"] 0 .int (by decide)⟩

/-- C4: `SqlType` resolves with the fixed precedence Date, then Integer,
then Float-or-Percent, then the `text` fallback, mapping to `timestamptz` /
`integer` / `float` / `text` (with the ` not null` modifier appended to the
three typed cases when no empty value was seen). -/
theorem claim_c4 (f : fieldType) :
    f.SqlType = (if f.Date then "timestamptz" else if f.Int then "integer"
        else if f.Float || f.Percent then "float" else "text") ++
      (if (f.Date || f.Int || f.Float || f.Percent) && !f.Empty then " not null" else "") := by
  rcases f with ⟨d, i, fl, p, e, ne⟩
  cases d <;> cases i <;> cases fl <;> cases p <;> cases e <;> rfl

/-- C5: pass-1 resolution is order independent — permuting the column values
yields the same final hypothesis state, hence the same SQL type and
nullability. -/
theorem claim_c5 (vs vs' : List String) (h : vs.Perm vs') :
    checkAll newFieldType vs = checkAll newFieldType vs' ∧
      (checkAll newFieldType vs).SqlType = (checkAll newFieldType vs').SqlType := by
  have he := checkAll_perm h newFieldType
  exact ⟨he, by rw [he]⟩

/-- Witness for C5 at a concrete permutation. -/
theorem claim_c5_witness :
    checkAll newFieldType ["1", "a"] = checkAll newFieldType ["a", "1"] ∧
      (checkAll newFieldType ["1", "a"]).SqlType = (checkAll newFieldType ["a", "1"]).SqlType :=
  claim_c5 _ _ (List.Perm.swap "a" "1" [])

/-- C6: the sentinel `#DIV/0!` behaves exactly like the empty string in both
passes: `Check` only sets `Empty` and leaves all four tags (and `NonEmpty`)
unchanged, and `Parse` returns the empty string without error. -/
theorem claim_c6 (f : fieldType) :
    f.Check "" = { f with Empty := true } ∧ f.Check "#DIV/0!" = { f with Empty := true } ∧
      f.Parse "" = .ok "" ∧ f.Parse "#DIV/0!" = .ok "" :=
  ⟨Check_empty (by decide), Check_empty (by decide),
    Parse_empty (by decide), Parse_empty (by decide)⟩

/-- C7: a non-empty column whose every value is empty or the sentinel keeps
all four tags possible, so it resolves to the precedence-default
`timestamptz` with no ` not null` modifier (nullable). -/
theorem claim_c7 (vs : List String) (hne : vs ≠ [])
    (h : ∀ v ∈ vs, normSent v = "") :
    checkAll newFieldType vs =
        { Date := true, Int := true, Float := true, Percent := true,
          Empty := true, NonEmpty := false } ∧
      (checkAll newFieldType vs).SqlType = "timestamptz" := by
  have key : ∀ (ws : List String) (f : fieldType), (∀ v ∈ ws, normSent v = "") → ws ≠ [] →
      checkAll f ws = { f with Empty := true } := by
    intro ws
    induction ws with
    | nil => intro f _ hn; exact absurd rfl hn
    | cons u ws ih =>
      intro f hall _
      show checkAll (f.Check u) ws = _
      rw [Check_empty (hall u (List.mem_cons_self _ _))]
      cases ws with
      | nil => rfl
      | cons w ws' =>
        rw [ih _ (fun v hv => hall v (List.mem_cons_of_mem _ hv)) (by simp)]
  have h1 := key vs newFieldType h hne
  refine ⟨by rw [h1]; rfl, ?_⟩
  rw [h1]
  rfl

/-- Witness for C7 at a concrete all-empty column. -/
theorem claim_c7_witness :
    (checkAll newFieldType ["", "#DIV/0!"]).SqlType = "timestamptz" :=
  (claim_c7 ["", "#DIV/0!"] (by decide) (by decide)).2

/-- C8: the Integer rule strips every comma and demands a base-10 signed
integer, rendering the canonical decimal string (so re-parsing an emitted
value is the identity); the column `["1", "2,000", "3"]` resolves to
`integer not null` and normalizes to `["1", "2000", "3"]`. -/
theorem claim_c8 :
    ((checkAll newFieldType ["1", "2,000", "3"]).SqlType = "integer not null" ∧
      ["1", "2,000", "3"].map ((checkAll newFieldType ["1", "2,000", "3"]).Parse) =
        [.ok "1", .ok "2000", .ok "3"]) ∧
      ∀ s v : String, parseInt s = .ok v → parseInt v = .ok v :=
  ⟨⟨by decide, by decide⟩, fun _ _ h => parseInt_canonical h⟩

/-- Witness for C8's canonical-form clause at a concrete value. -/
theorem claim_c8_witness : parseInt "2000" = .ok "2000" :=
  claim_c8.2 "2,000" "2000" (by decide)

/-- C2 fails as stated: a column of `["a"]` resolves to `text`, whose
emitted type never carries ` not null`, although no observed value was
empty or the sentinel — the claimed "iff" breaks for text columns. -/
theorem claim_c2_counterexample :
    hasNotNull ((checkAll newFieldType ["a"]).SqlType) = false ∧
      (["a"].any (fun v => normSent v == "")) = false := by
  decide

/-- C2 (amended): the emitted type carries ` not null` iff no observed value
was empty or the sentinel AND the column resolved to a non-text type; a
text column is emitted without ` not null` regardless of nullability. -/
theorem claim_c2_amended (vs : List String) :
    hasNotNull ((checkAll newFieldType vs).SqlType) =
      (!(vs.any (fun v => normSent v == "")) &&
        ((checkAll newFieldType vs).Date || (checkAll newFieldType vs).Int ||
          (checkAll newFieldType vs).Float || (checkAll newFieldType vs).Percent)) := by
  have gen : ∀ g : fieldType,
      hasNotNull g.SqlType = (!g.Empty && (g.Date || g.Int || g.Float || g.Percent)) := by
    intro g
    rcases g with ⟨d, i, fl, p, e, ne⟩
    cases d <;> cases i <;> cases fl <;> cases p <;> cases e <;> rfl
  have hE := Empty_checkAll newFieldType vs
  rw [gen (checkAll newFieldType vs), hE]
  rfl

/-! ### Float and Percent rules are mutually exclusive -/

theorem toLower_letter {c : Char} (hx : 97 ≤ (Char.toLower c).toNat ∧ (Char.toLower c).toNat ≤ 122) :
    (65 ≤ c.toNat ∧ c.toNat ≤ 90) ∨ (97 ≤ c.toNat ∧ c.toNat ≤ 122) := by
  simp only [Char.toLower] at hx
  split at hx
  · rename_i hc
    exact Or.inl hc
  · exact Or.inr hx

theorem lowerEq_chars {cs : List Char} {w : String} (h : lowerEq cs w = true)
    (hw : ∀ x ∈ w.data, 97 ≤ x.toNat ∧ x.toNat ≤ 122) :
    ∀ c ∈ cs, (65 ≤ c.toNat ∧ c.toNat ≤ 90) ∨ (97 ≤ c.toNat ∧ c.toNat ≤ 122) := by
  intro c hc
  unfold lowerEq at h
  have he : cs.map Char.toLower = w.data := by simpa using h
  have hmem : Char.toLower c ∈ w.data := he ▸ List.mem_map_of_mem _ hc
  exact toLower_letter (hw _ hmem)

theorem expTail_chars {r : List Char} (h : expTail r = true) :
    ∀ c ∈ r, isDigitChar c = true ∨ c = '+' ∨ c = '-' := by
  intro c hc
  unfold expTail at h
  have hall : (stripSign r).all isDigitChar = true := (Bool.and_eq_true_iff.mp h).2
  cases r with
  | nil => cases hc
  | cons a rest =>
    by_cases ha : a = '+' ∨ a = '-'
    · have hs : stripSign (a :: rest) = rest := by simp [stripSign, ha]
      rcases List.mem_cons.1 hc with rfl | hm
      · rcases ha with h' | h'
        · exact Or.inr (Or.inl h')
        · exact Or.inr (Or.inr h')
      · rw [hs] at hall
        exact Or.inl (List.all_eq_true.mp hall _ hm)
    · have hs : stripSign (a :: rest) = a :: rest := by simp [stripSign, ha]
      rw [hs] at hall
      exact Or.inl (List.all_eq_true.mp hall _ hc)

theorem expPart_chars {r : List Char} (h : expPart r = true) :
    ∀ c ∈ r, isDigitChar c = true ∨ c = '+' ∨ c = '-' ∨ c = 'e' ∨ c = 'E' := by
  intro c hc
  cases r with
  | nil => cases hc
  | cons a rest =>
    by_cases he : a = 'e' ∨ a = 'E'
    · have h2 : expTail rest = true := by
        simpa [expPart, he] using h
      rcases List.mem_cons.1 hc with rfl | hm
      · rcases he with h' | h'
        · exact Or.inr (Or.inr (Or.inr (Or.inl h')))
        · exact Or.inr (Or.inr (Or.inr (Or.inr h')))
      · rcases expTail_chars h2 c hm with h' | h' | h'
        · exact Or.inl h'
        · exact Or.inr (Or.inl h')
        · exact Or.inr (Or.inr (Or.inl h'))
    · exact absurd h (by simp [expPart, he])

theorem mantissaRest_chars {d1 r : List Char} (h : mantissaRest d1 r = true) :
    ∀ c ∈ r, isDigitChar c = true ∨ c = '+' ∨ c = '-' ∨ c = '.' ∨ c = 'e' ∨ c = 'E' := by
  intro c hc
  unfold mantissaRest at h
  by_cases hdot : r.head? = some '.'
  · rw [if_pos hdot] at h
    have hexp : expPart (r.tail.dropWhile isDigitChar) = true := (Bool.and_eq_true_iff.mp h).2
    cases r with
    | nil => cases hc
    | cons a rest =>
      have ha : a = '.' := by simpa using hdot
      rcases List.mem_cons.1 hc with rfl | hm
      · exact Or.inr (Or.inr (Or.inr (Or.inl ha)))
      · have hm2 : c ∈ rest.takeWhile isDigitChar ++ rest.dropWhile isDigitChar := by
          rw [List.takeWhile_append_dropWhile]
          exact hm
        rcases List.mem_append.1 hm2 with h1 | h2
        · exact Or.inl (List.mem_takeWhile_imp h1)
        · rcases expPart_chars hexp c h2 with h' | h' | h' | h' | h'
          · exact Or.inl h'
          · exact Or.inr (Or.inl h')
          · exact Or.inr (Or.inr (Or.inl h'))
          · exact Or.inr (Or.inr (Or.inr (Or.inr (Or.inl h'))))
          · exact Or.inr (Or.inr (Or.inr (Or.inr (Or.inr h'))))
  · rw [if_neg hdot] at h
    have hexp : expPart r = true := (Bool.and_eq_true_iff.mp h).2
    rcases expPart_chars hexp c hc with h' | h' | h' | h' | h'
    · exact Or.inl h'
    · exact Or.inr (Or.inl h')
    · exact Or.inr (Or.inr (Or.inl h'))
    · exact Or.inr (Or.inr (Or.inr (Or.inr (Or.inl h'))))
    · exact Or.inr (Or.inr (Or.inr (Or.inr (Or.inr h'))))

theorem decSyntax_chars {cs : List Char} (h : decSyntax cs = true) :
    ∀ c ∈ cs, isDigitChar c = true ∨ c = '+' ∨ c = '-' ∨ c = '.' ∨ c = 'e' ∨ c = 'E' := by
  intro c hc
  unfold decSyntax at h
  cases cs with
  | nil => cases hc
  | cons a rest =>
    by_cases ha : a = '+' ∨ a = '-'
    · have hs : stripSign (a :: rest) = rest := by simp [stripSign, ha]
      rw [hs] at h
      rcases List.mem_cons.1 hc with rfl | hm
      · rcases ha with h' | h'
        · exact Or.inr (Or.inl h')
        · exact Or.inr (Or.inr (Or.inl h'))
      · have hm2 : c ∈ rest.takeWhile isDigitChar ++ rest.dropWhile isDigitChar := by
          rw [List.takeWhile_append_dropWhile]
          exact hm
        rcases List.mem_append.1 hm2 with h1 | h2
        · exact Or.inl (List.mem_takeWhile_imp h1)
        · exact mantissaRest_chars h c h2
    · have hs : stripSign (a :: rest) = a :: rest := by simp [stripSign, ha]
      rw [hs] at h
      have hm2 : c ∈ (a :: rest).takeWhile isDigitChar ++ (a :: rest).dropWhile isDigitChar := by
        rw [List.takeWhile_append_dropWhile]
        exact hc
      rcases List.mem_append.1 hm2 with h1 | h2
      · exact Or.inl (List.mem_takeWhile_imp h1)
      · exact mantissaRest_chars h c h2

theorem specialFloat_chars {cs : List Char} (h : specialFloat cs = true) :
    ∀ c ∈ cs, c = '+' ∨ c = '-' ∨ (65 ≤ c.toNat ∧ c.toNat ≤ 90) ∨
      (97 ≤ c.toNat ∧ c.toNat ≤ 122) := by
  have hw1 : ∀ x ∈ ("inf").data, 97 ≤ x.toNat ∧ x.toNat ≤ 122 := by decide
  have hw2 : ∀ x ∈ ("infinity").data, 97 ≤ x.toNat ∧ x.toNat ≤ 122 := by decide
  have hw3 : ∀ x ∈ ("nan").data, 97 ≤ x.toNat ∧ x.toNat ≤ 122 := by decide
  intro c hc
  unfold specialFloat at h
  simp only [Bool.or_eq_true, Bool.and_eq_true] at h
  rcases h with ((h | h) | h) | ⟨hsign, hrest⟩
  · exact Or.inr (Or.inr (lowerEq_chars h hw1 c hc))
  · exact Or.inr (Or.inr (lowerEq_chars h hw2 c hc))
  · exact Or.inr (Or.inr (lowerEq_chars h hw3 c hc))
  · cases cs with
    | nil => cases hc
    | cons a rest =>
      rcases List.mem_cons.1 hc with rfl | hm
      · simp only [List.head?_cons, Bool.or_eq_true, beq_iff_eq, Option.some.injEq] at hsign
        rcases hsign with h' | h'
        · exact Or.inl h'
        · exact Or.inr (Or.inl h')
      · rcases hrest with h' | h'
        · exact Or.inr (Or.inr (lowerEq_chars h' hw1 c hm))
        · exact Or.inr (Or.inr (lowerEq_chars h' hw2 c hm))

theorem goFloatAccepts_no_percent {cs : List Char} (h : goFloatAccepts cs = true) :
    ¬ '%' ∈ cs := by
  intro hc
  unfold goFloatAccepts at h
  simp only [Bool.or_eq_true, Bool.and_eq_true] at h
  rcases h with h | ⟨h, _⟩
  · rcases specialFloat_chars h '%' hc with h' | h' | h' | h' <;> simp_all
  · rcases decSyntax_chars h '%' hc with h' | h' | h' | h' | h' | h' <;> simp_all [isDigitChar]

theorem parseFloat_not_percent (s : String) (hF : isOkE (parseFloat s) = true) :
    isOkE (parsePercent s) = false := by
  unfold parseFloat at hF
  by_cases hacc : goFloatAccepts (stripCommas s).data = true
  · unfold parsePercent
    by_cases hlast : s.data.getLast? = some '%'
    · have hmem : '%' ∈ s.data := List.mem_of_getLast?_eq_some hlast
      have hmem2 : '%' ∈ (stripCommas s).data := by
        simp only [stripCommas]
        exact List.mem_filter.mpr ⟨hmem, by decide⟩
      exact absurd hmem2 (goFloatAccepts_no_percent hacc)
    · rw [if_neg hlast]
      rfl
  · rw [if_neg hacc] at hF
    simp [isOkE] at hF

/-- C10: no single string is accepted by both the Float rule and the Percent
rule (the trailing `%` that Percent demands makes the Float parse fail), so
once `Check` has seen a non-empty non-sentinel value, Float and Percent are
never both still possible and the Float-before-Percent dispatch of pass 2
is unambiguous. -/
theorem claim_c10 :
    (∀ s : String, isOkE (parseFloat s) = true → isOkE (parsePercent s) = false) ∧
      ∀ vs : List String, (∃ v ∈ vs, ¬ normSent v = "") →
        ((checkAll newFieldType vs).Float && (checkAll newFieldType vs).Percent) = false := by
  refine ⟨fun s h => parseFloat_not_percent s h, ?_⟩
  rintro vs ⟨v, hv, hne⟩
  cases hFl : (checkAll newFieldType vs).Float
  · simp
  · cases hP : (checkAll newFieldType vs).Percent
    · simp [hP]
    · have h1 := accepted_of_possible (t := .float) hFl v hv hne
      have h2 := accepted_of_possible (t := .percent) hP v hv hne
      have h3 := parseFloat_not_percent v h1
      have h2' : isOkE (parsePercent v) = true := h2
      rw [h2'] at h3
      exact absurd h3 (by simp)

/-- Witness for C10 at a concrete value and column. -/
theorem claim_c10_witness :
    isOkE (parsePercent "1") = false ∧
      ((checkAll newFieldType ["1"]).Float && (checkAll newFieldType ["1"]).Percent) = false :=
  ⟨claim_c10.1 "1" (by decide), claim_c10.2 ["1"] ⟨"1", by decide, by decide⟩⟩

/-! ### Identifier derivation: slug shape, suffix search, uniqueness -/

theorem collapseNonSlug_chars : ∀ (b : Bool) (cs : List Char), ∀ c ∈ collapseNonSlug b cs,
    isSlugChar c = true ∨ c = '_' := by
  intro b cs
  induction cs generalizing b with
  | nil => intro c hc; cases hc
  | cons a rest ih =>
    intro c hc
    unfold collapseNonSlug at hc
    by_cases hs : isSlugChar a
    · rw [if_pos hs] at hc
      rcases List.mem_cons.1 hc with rfl | hm
      · exact Or.inl hs
      · exact ih false c hm
    · rw [if_neg hs] at hc
      by_cases hb : b = true
      · rw [if_pos hb] at hc
        exact ih true c hc
      · rw [if_neg hb] at hc
        rcases List.mem_cons.1 hc with rfl | hm
        · exact Or.inr rfl
        · exact ih true c hm

theorem head?_dropWhile_ne {α : Type} {p : α → Bool} {l : List α} {a : α}
    (h : (l.dropWhile p).head? = some a) : p a = false := by
  have hh := List.head?_dropWhile_not p l
  rw [h] at hh
  exact hh

theorem getLast?_dropWhile {α : Type} {p : α → Bool} :
    ∀ {l : List α}, l.dropWhile p ≠ [] → (l.dropWhile p).getLast? = l.getLast? := by
  intro l
  induction l with
  | nil => intro h; simp at h
  | cons a rest ih =>
    intro h
    by_cases hp : p a
    · rw [List.dropWhile_cons_of_pos hp] at h ⊢
      rw [ih h]
      have hrest : rest ≠ [] := by
        intro e
        subst e
        simp at h
      cases rest with
      | nil => exact absurd rfl hrest
      | cons b t => rw [List.getLast?_cons_cons]
    · rw [List.dropWhile_cons_of_neg hp]

theorem trimUnderscores_subset {cs : List Char} : ∀ c ∈ trimUnderscores cs, c ∈ cs := by
  intro c hc
  unfold trimUnderscores at hc
  rw [List.mem_reverse] at hc
  have h1 := (List.dropWhile_sublist _).subset hc
  rw [List.mem_reverse] at h1
  exact (List.dropWhile_sublist _).subset h1

theorem trimUnderscores_head {cs : List Char} {a : Char}
    (h : (trimUnderscores cs).head? = some a) : ¬ a = '_' := by
  unfold trimUnderscores at h
  rw [List.head?_reverse] at h
  have hne : List.dropWhile (fun c => c = '_') ((cs.dropWhile (fun c => c = '_')).reverse) ≠ [] := by
    intro e
    rw [e] at h
    simp at h
  rw [getLast?_dropWhile hne, List.getLast?_reverse] at h
  have := head?_dropWhile_ne h
  simpa using this

theorem trimUnderscores_getLast {cs : List Char} {a : Char}
    (h : (trimUnderscores cs).getLast? = some a) : ¬ a = '_' := by
  unfold trimUnderscores at h
  rw [List.getLast?_reverse] at h
  have := head?_dropWhile_ne h
  simpa using this

theorem slug_good (s : String) : slug s = "" ∨ goodIdent (slug s) := by
  by_cases he : slug s = ""
  · exact Or.inl he
  · right
    refine ⟨?_, ?_, ?_, ?_⟩
    · intro hd
      exact he (String.ext hd)
    · intro c hc
      have hc' : c ∈ trimUnderscores (collapseNonSlug false (s.data.map Char.toLower)) := hc
      have h2 := trimUnderscores_subset c hc'
      rcases collapseNonSlug_chars false _ c h2 with h' | h'
      · have hid : isIdentChar c = (isSlugChar c || decide (c = '_')) := rfl
        rw [hid, h']
        rfl
      · subst h'
        decide
    · intro hh
      have hh' : (trimUnderscores (collapseNonSlug false (s.data.map Char.toLower))).head? =
          some '_' := hh
      exact trimUnderscores_head hh' rfl
    · intro hh
      have hh' : (trimUnderscores (collapseNonSlug false (s.data.map Char.toLower))).getLast? =
          some '_' := hh
      exact trimUnderscores_getLast hh' rfl

theorem goodIdent_x : goodIdent "x" := by decide

theorem goodIdent_suffix {sl : String} (h : goodIdent sl) (k : Nat) :
    goodIdent (sl ++ "_" ++ decRepr k) := by
  obtain ⟨hne, hchars, hhead, hlast⟩ := h
  have hdata : (sl ++ "_" ++ decRepr k).data = sl.data ++ '_' :: (decRepr k).data := by
    simp [String.data_append]
  refine ⟨?_, ?_, ?_, ?_⟩
  · rw [hdata]
    simp
  · intro c hc
    rw [hdata] at hc
    rcases List.mem_append.1 hc with h1 | h2
    · exact hchars c h1
    · rcases List.mem_cons.1 h2 with rfl | h3
      · decide
      · have hd := decRepr_data_digits k c h3
        simp [isIdentChar, isDigitChar] at hd ⊢
        omega
  · rw [hdata, List.head?_append]
    cases hh : sl.data.head? with
    | none =>
      rw [List.head?_eq_none_iff] at hh
      exact absurd hh hne
    | some b =>
      have hb : ¬ b = '_' := fun e => hhead (by rw [hh, e])
      simp [Option.or]
      exact fun e => hb e
  · rw [hdata]
    have hk : (decRepr k).data ≠ [] := decRepr_data_ne_nil k
    obtain ⟨a, ha⟩ : ∃ a, (decRepr k).data.getLast? = some a := by
      cases hx : (decRepr k).data.getLast? with
      | none =>
        rw [List.getLast?_eq_none_iff] at hx
        exact absurd hx hk
      | some a => exact ⟨a, rfl⟩
    have hadig : isDigitChar a = true :=
      decRepr_data_digits k a (List.mem_of_getLast?_eq_some ha)
    have hcons : ('_' :: (decRepr k).data).getLast? = some a := by
      rw [show ('_' :: (decRepr k).data) = ['_'] ++ (decRepr k).data from rfl,
        List.getLast?_append, ha]
      rfl
    rw [List.getLast?_append, hcons]
    simp [Option.or]
    intro e
    subst e
    simp [isDigitChar] at hadig

theorem suffix_name_inj (sl : String) : Function.Injective (fun j : Nat => sl ++ "_" ++ decRepr (2 + j)) := by
  intro a b hab
  simp only at hab
  have hd : (sl ++ "_" ++ decRepr (2 + a)).data = (sl ++ "_" ++ decRepr (2 + b)).data := by
    rw [hab]
  simp only [String.data_append] at hd
  have h2 : (decRepr (2 + a)).data = (decRepr (2 + b)).data := List.append_cancel_left hd
  have h3 := decRepr_data_val (2 + a)
  rw [h2, decRepr_data_val] at h3
  omega

theorem exists_free_suffix (seen : List String) (sl : String) :
    ∃ j : Nat, j ≤ seen.length ∧ (sl ++ "_" ++ decRepr (2 + j)) ∉ seen := by
  by_contra hcon
  push_neg at hcon
  have hsub : (Finset.range (seen.length + 1)).image (fun j => sl ++ "_" ++ decRepr (2 + j)) ⊆
      seen.toFinset := by
    intro x hx
    simp only [Finset.mem_image, Finset.mem_range] at hx
    obtain ⟨j, hj, rfl⟩ := hx
    rw [List.mem_toFinset]
    exact hcon j (by omega)
  have hcard := Finset.card_le_card hsub
  rw [Finset.card_image_of_injective _ (suffix_name_inj sl), Finset.card_range] at hcard
  have hle := List.toFinset_card_le (l := seen)
  omega

theorem suffixSearch_spec (seen : List String) (sl : String) :
    ∀ (fuel k : Nat), (∃ j, j ≤ fuel ∧ (sl ++ "_" ++ decRepr (k + j)) ∉ seen) →
      suffixSearch seen sl fuel k ∉ seen ∧
        ∃ j, suffixSearch seen sl fuel k = sl ++ "_" ++ decRepr (k + j) ∧
          ∀ i < j, (sl ++ "_" ++ decRepr (k + i)) ∈ seen := by
  intro fuel
  induction fuel with
  | zero =>
    rintro k ⟨j, hj, hfree⟩
    have hj0 : j = 0 := by omega
    subst hj0
    refine ⟨by simpa [suffixSearch] using hfree, 0, by simp [suffixSearch], ?_⟩
    intro i hi
    exact absurd hi (Nat.not_lt_zero i)
  | succ fuel ih =>
    rintro k ⟨j, hj, hfree⟩
    by_cases hk : (sl ++ "_" ++ decRepr k) ∈ seen
    · have hrec : ∃ j', j' ≤ fuel ∧ (sl ++ "_" ++ decRepr (k + 1 + j')) ∉ seen := by
        cases j with
        | zero =>
          rw [Nat.add_zero] at hfree
          exact absurd hk hfree
        | succ j' =>
          refine ⟨j', by omega, ?_⟩
          rw [show k + 1 + j' = k + (j' + 1) from by omega]
          exact hfree
      obtain ⟨hno, j0, heq, hmin⟩ := ih (k + 1) hrec
      have hss : suffixSearch seen sl (fuel + 1) k = suffixSearch seen sl fuel (k + 1) := by
        simp [suffixSearch, hk]
      refine ⟨by rw [hss]; exact hno, j0 + 1, ?_, ?_⟩
      · rw [hss, heq]
        congr 2
        omega
      · intro i hi
        cases i with
        | zero =>
          rw [Nat.add_zero]
          exact hk
        | succ i' =>
          have hmem := hmin i' (by omega)
          rw [show k + 1 + i' = k + (i' + 1) from by omega] at hmem
          exact hmem
    · have hss : suffixSearch seen sl (fuel + 1) k = sl ++ "_" ++ decRepr k := by
        simp [suffixSearch, hk]
      refine ⟨by rw [hss]; exact hk, 0, by rw [hss, Nat.add_zero], ?_⟩
      intro i hi
      exact absurd hi (Nat.not_lt_zero i)

theorem nextFree_spec (seen : List String) (sl : String) :
    nextFree seen sl ∉ seen ∧
      ∃ j : Nat, nextFree seen sl = sl ++ "_" ++ decRepr (2 + j) ∧
        ∀ i < j, (sl ++ "_" ++ decRepr (2 + i)) ∈ seen := by
  obtain ⟨j, hj, hfree⟩ := exists_free_suffix seen sl
  exact suffixSearch_spec seen sl seen.length 2 ⟨j, hj, hfree⟩

theorem columnNamesFrom_not_mem_seen :
    ∀ (cols seen : List String) (x : String), x ∈ columnNamesFrom seen cols → x ∉ seen := by
  intro cols
  induction cols with
  | nil =>
    intro seen x hx
    cases hx
  | cons col rest ih =>
    intro seen x hx
    simp only [columnNamesFrom] at hx
    rcases List.mem_cons.1 hx with rfl | hm
    · by_cases h1 : (if slug col = "" then "x" else slug col) ∈ seen
      · rw [if_pos h1]
        exact (nextFree_spec seen _).1
      · rw [if_neg h1]
        exact h1
    · intro hxseen
      exact ih _ x hm (List.mem_cons_of_mem _ hxseen)

theorem columnNamesFrom_nodup : ∀ (cols seen : List String), (columnNamesFrom seen cols).Nodup := by
  intro cols
  induction cols with
  | nil => intro seen; exact List.nodup_nil
  | cons col rest ih =>
    intro seen
    simp only [columnNamesFrom]
    rw [List.nodup_cons]
    refine ⟨?_, ih _⟩
    intro hmem
    exact columnNamesFrom_not_mem_seen rest _ _ hmem (List.mem_cons_self _ _)

theorem columnNamesFrom_good : ∀ (cols seen : List String), ∀ x ∈ columnNamesFrom seen cols,
    goodIdent x := by
  intro cols
  induction cols with
  | nil =>
    intro seen x hx
    cases hx
  | cons col rest ih =>
    intro seen x hx
    simp only [columnNamesFrom] at hx
    rcases List.mem_cons.1 hx with rfl | hm
    · have hsl1 : goodIdent (if slug col = "" then "x" else slug col) := by
        by_cases h0 : slug col = ""
        · rw [if_pos h0]
          exact goodIdent_x
        · rw [if_neg h0]
          rcases slug_good col with h | h
          · exact absurd h h0
          · exact h
      by_cases h1 : (if slug col = "" then "x" else slug col) ∈ seen
      · rw [if_pos h1]
        obtain ⟨-, j, heq, -⟩ := nextFree_spec seen (if slug col = "" then "x" else slug col)
        rw [heq]
        exact goodIdent_suffix hsl1 _
      · rw [if_neg h1]
        exact hsl1
    · exact ih _ x hm

/-- C9: derived column identifiers are pairwise distinct and well formed
(non-empty, alphabet `[a-z0-9_]`, no underscore at either end); an
empty-slug header falls back to the literal `x`; a collision takes the
first unused suffix `_2`, `_3`, … counted from 2, first occurrence keeping
the unsuffixed name; headers `["Name", "name", "Name"]` give
`["name", "name_2", "name_3"]`. -/
theorem claim_c9 :
    (∀ headers : List String, (columnNamesFrom [] headers).Nodup ∧
        ∀ x ∈ columnNamesFrom [] headers, goodIdent x) ∧
      (∀ (seen : List String) (sl : String), nextFree seen sl ∉ seen ∧
        ∃ j : Nat, nextFree seen sl = sl ++ "_" ++ decRepr (2 + j) ∧
          ∀ i < j, (sl ++ "_" ++ decRepr (2 + i)) ∈ seen) ∧
      columnNamesFrom [] ["Name", "name", "Name"] = ["name", "name_2", "name_3"] ∧
      columnNamesFrom [] ["", "??"] = ["x", "x_2"] :=
  ⟨fun headers => ⟨columnNamesFrom_nodup _ _, columnNamesFrom_good _ _⟩,
    fun seen sl => nextFree_spec seen sl, by decide, by decide⟩

/-- Witness for C9 at a concrete header row. -/
theorem claim_c9_witness : goodIdent "name" :=
  (claim_c9.1 ["Name"]).2 "name" (by decide)
